import Mathlib

set_option maxRecDepth 8000

/-!
Shallow embedding of the core of src/main.rs (a Wordle-style assistant).
Words and candidate strings are modelled as `List Char`; the BTreeSet
dictionary is modelled as a list in ascending order; BTreeSet/BTreeMap
values that are consumed only through membership / lookup are modelled
as lists (respectively association lists), which is faithful for every
operation the source performs on them.  Array indexing that can go out
of bounds in Rust (a panic) is modelled by `Option`, `none` standing
for the panic.
-/

/-- Per-letter feedback for one guessed position, mirroring `enum Letter`
of src/main.rs: `Hit`, `Miss`, `Contains`, each carrying a char. -/
inductive Letter where
  | Hit : Char → Letter
  | Miss : Char → Letter
  | Contains : Char → Letter
deriving DecidableEq

/-- Letters of one guess record marked Contains or Hit, in position order:
the per-round extraction done inside `Wordl::make_contains`. -/
def roundLetters (w : List Letter) : List Char :=
  w.filterMap fun l =>
    match l with
    | Letter.Contains c => some c
    | Letter.Hit c => some c
    | Letter.Miss _ => none

/-- One step of the inner loop of `Wordl::make_contains`: the state is the
pair (acc, stack); a letter already pending on the stack cancels (is
erased from the stack), otherwise it is appended to acc. -/
def roundStep (p : List Char × List Char) (c : Char) : List Char × List Char :=
  if p.2.contains c then (p.1, p.2.erase c) else (p.1 ++ [c], p.2)

/-- Processing one round inside the fold of `Wordl::make_contains`:
`stack` starts as a copy of `acc` (`acc.to_vec()` in the source). -/
def processRound (acc : List Char) (inst : List Char) : List Char :=
  (inst.foldl roundStep (acc, acc)).1

/-- Rust `Wordl::make_contains`: fold the per-round Contains/Hit letters
with duplicate cancellation. -/
def make_contains (ws : List (List Letter)) : List Char :=
  ws.foldl (fun acc w => processRound acc (roundLetters w)) []

/-- Inner loop of `Wordl::make_hits`: walk one record with its position
index, writing `some c` at the index of each Hit (last write wins). -/
def writeHits : List (Option Char) → Nat → List Letter → List (Option Char)
  | res, _, [] => res
  | res, idx, l :: rest =>
    writeHits
      (match l with
        | Letter.Hit c => res.set idx (some c)
        | _ => res)
      (idx + 1) rest

/-- Rust `Wordl::make_hits`: per-position confirmed letters, an array of
five optional chars. -/
def make_hits (ws : List (List Letter)) : List (Option Char) :=
  ws.foldl (fun res w => writeHits res 0 w) (List.replicate 5 none)

/-- Set insertion for the `BTreeSet<char>` model (only membership of the
result is ever consumed, so the representation order is immaterial). -/
def insertChar (s : List Char) (c : Char) : List Char :=
  if s.contains c then s else s ++ [c]

/-- Inner loop of `Wordl::make_excludes_at`: walk one record with its
position index, inserting the letter of each Contains at its index. -/
def writeExAt : List (List Char) → Nat → List Letter → List (List Char)
  | res, _, [] => res
  | res, idx, l :: rest =>
    writeExAt
      (match l with
        | Letter.Contains c => res.set idx (insertChar ((res[idx]?).getD []) c)
        | _ => res)
      (idx + 1) rest

/-- Rust `Wordl::make_excludes_at`: per-position sets of letters marked
Contains at that position. -/
def make_excludes_at (ws : List (List Letter)) : List (List Char) :=
  ws.foldl (fun res w => writeExAt res 0 w) (List.replicate 5 [])

/-- Rust global excludes set built inside `Wordl::make_is_valid`: every
letter marked Miss anywhere in the history. -/
def make_excludes (ws : List (List Letter)) : List Char :=
  (ws.map fun w =>
    w.filterMap fun l =>
      match l with
      | Letter.Miss c => some c
      | _ => none).flatten

/-- Check of a positional hit against the current char, mirroring
`if let Some(h) = hits[idx] { if h != c { return false; } }`. -/
def hitMismatch (oh : Option Char) (c : Char) : Bool :=
  match oh with
  | some h => h != c
  | none => false

/-- Scan loop of the closure returned by `Wordl::make_is_valid`; `idx` is
the enumerate counter and `cont` the local copy of the contains vector.
Out-of-bounds indexing (a Rust panic, possible when the candidate has
more than five characters) is `none`. -/
def evalFrom (excl : List Char) (hits : List (Option Char)) (exAt : List (List Char)) :
    List Char → Nat → List Char → Option Bool
  | [], _, cont => some cont.isEmpty
  | c :: rest, idx, cont =>
    let cont' := if cont.contains c then cont.erase c else cont
    if excl.contains c then some false
    else
      match hits[idx]? with
      | none => none
      | some oh =>
        if hitMismatch oh c then some false
        else
          match exAt[idx]? with
          | none => none
          | some ex =>
            if ex.contains c then some false
            else evalFrom excl hits exAt rest (idx + 1) cont'

/-- Rust `Wordl::make_is_valid` applied to a candidate: build the four
constraint sets from the history and run the closure on the word. -/
def make_is_valid (ws : List (List Letter)) (s : List Char) : Option Bool :=
  evalFrom (make_excludes ws) (make_hits ws) (make_excludes_at ws) s 0 (make_contains ws)

/-- Rust `struct Wordl`: the candidate dictionary (a BTreeSet, modelled as
an ascending list) and the accumulated guess history. -/
structure Wordl where
  dictionary : List (List Char)
  guesses : List (List Letter)

/-- Rust `Wordl::guess`: push the record onto the history, rebuild the
predicate from the whole history and retain the words it accepts. -/
def Wordl.guess (w : Wordl) (word : List Letter) : Wordl :=
  { dictionary := w.dictionary.filter fun k =>
      make_is_valid (w.guesses ++ [word]) k == some true
    guesses := w.guesses ++ [word] }

/-- Applying `Wordl::guess` once per record of a history, in order. -/
def playHistory (st : Wordl) (rs : List (List Letter)) : Wordl :=
  rs.foldl Wordl.guess st

/-- Rust `struct CharFreq`: per-letter counts (a BTreeMap, modelled as an
association list) and the running total. -/
structure CharFreq where
  counts : List (Char × Nat)
  total : Nat
deriving DecidableEq

/-- Rust `counts.entry(c).and_modify(|c| *c += 1).or_insert(1)`. -/
def bumpCount : List (Char × Nat) → Char → List (Char × Nat)
  | [], c => [(c, 1)]
  | (d, n) :: rest, c =>
    if d = c then (d, n + 1) :: rest else (d, n) :: bumpCount rest c

/-- Rust `CharFreq::insert`. -/
def insertCF (f : CharFreq) (c : Char) : CharFreq :=
  { counts := bumpCount f.counts c, total := f.total + 1 }

/-- Lookup in the counts map, mirroring `counts.get(&c)`. -/
def lookupCount : List (Char × Nat) → Char → Option Nat
  | [], _ => none
  | (d, n) :: rest, c => if d = c then some n else lookupCount rest c

/-- Rust `CharFreq::rate`; the f64 division of the source is modelled
with exact rationals. -/
def rate (f : CharFreq) (c : Char) : ℚ :=
  match f.total with
  | 0 => 0
  | _ => ((lookupCount f.counts c).getD 0 : ℚ) / (f.total : ℚ)

/-- Inner loop of `Wordl::make_char_frequency`: insert each char of one
word into the frequency table of its position. -/
def freqWord : List CharFreq → Nat → List Char → List CharFreq
  | res, _, [] => res
  | res, idx, c :: rest =>
    freqWord (res.set idx (insertCF ((res[idx]?).getD ⟨[], 0⟩) c)) (idx + 1) rest

/-- Rust `Wordl::make_char_frequency`: five per-position tables. -/
def make_char_frequency (vals : List (List Char)) : List CharFreq :=
  vals.foldl (fun res w => freqWord res 0 w) (List.replicate 5 ⟨[], 0⟩)

/-- Scoring fold of `Wordl::suggest`: sum of `freq[idx].rate(c)` over the
enumerated chars; `none` stands for the out-of-bounds panic on a word of
more than five characters. -/
def scoreFold (freq : List CharFreq) : List Char → Nat → ℚ → Option ℚ
  | [], _, acc => some acc
  | c :: rest, idx, acc =>
    match freq[idx]? with
    | none => none
    | some f => scoreFold freq rest (idx + 1) (acc + rate f c)

/-- Score of one candidate in `Wordl::suggest`. -/
def scoreOpt (freq : List CharFreq) (s : List Char) : Option ℚ :=
  scoreFold freq s 0 0

/-- Stable insertion into an ascending-by-key list: the new element goes
before the first element whose key is not smaller. -/
def insertAsc (key : List Char → ℚ) (x : List Char) : List (List Char) → List (List Char)
  | [] => [x]
  | y :: ys => if key y < key x then y :: insertAsc key x ys else x :: y :: ys

/-- Stable ascending sort by key.  Rust `sort_by` is a stable sort and the
comparator of `Wordl::suggest` orders by score (Less when the left score
is smaller), so any stable ascending-by-score sort computes the same
list; insertion sort is used here. -/
def sortAsc (key : List Char → ℚ) : List (List Char) → List (List Char)
  | [] => []
  | x :: xs => insertAsc key x (sortAsc key xs)

/-- Rust `Wordl::suggest`: sort the dictionary ascending by score and take
the first `upto` entries.  The guard is false exactly when some
dictionary word scores to `none`, that is, has more than five
characters, which is exactly when the source panics (building the
frequency table indexes `result[idx]` with `idx >= 5`, and scoring
indexes `freq[idx]` likewise); `none` models that panic. -/
def Wordl.suggest (w : Wordl) (upto : Nat) : Option (List (List Char)) :=
  if w.dictionary.all (fun s => (scoreOpt (make_char_frequency w.dictionary) s).isSome) then
    some ((sortAsc
      (fun s => (scoreOpt (make_char_frequency w.dictionary) s).getD 0)
      w.dictionary).take upto)
  else none

/-- Accuracy of one outcome at index `i` for a given target, as the claim
defines it: Hit iff the target has the letter there, Contains iff the
target has the letter but elsewhere, Miss iff the target lacks it. -/
def accOutcome (target : List Char) (i : Nat) : Letter → Bool
  | Letter.Hit c => target[i]? == some c
  | Letter.Contains c => target.contains c && target[i]? != some c
  | Letter.Miss c => !(target.contains c)

/-- Accuracy of the suffix of a record starting at index `i`. -/
def accFrom (target : List Char) : Nat → List Letter → Bool
  | _, [] => true
  | i, l :: rest => accOutcome target i l && accFrom target (i + 1) rest

/-- Accurate guess record for a target: five outcomes, each accurate at
its position. -/
def AccurateRecord (target : List Char) (w : List Letter) : Bool :=
  (w.length == 5) && accFrom target 0 w

/-- Accurate guess history: every record accurate. -/
def AccurateHistory (target : List Char) (ws : List (List Letter)) : Bool :=
  ws.all fun w => AccurateRecord target w

/-- Bounded record: each letter is marked Hit or Contains at most as many
times as it occurs in the target (what real Wordle feedback guarantees
for duplicate letters). -/
def BoundedRecord (target : List Char) (w : List Letter) : Bool :=
  (roundLetters w).all fun c => (roundLetters w).count c ≤ target.count c

/-- Bounded guess history: every record bounded. -/
def BoundedHistory (target : List Char) (ws : List (List Letter)) : Bool :=
  ws.all fun w => BoundedRecord target w

/-- Worked-example history of the repository's tests (tests::test_valid
and tests::contains_creates_expected_vector). -/
def exampleHistory : List (List Letter) :=
  [[Letter.Miss 'c', Letter.Miss 'c', Letter.Contains 'e', Letter.Miss 'c', Letter.Miss 'c'],
   [Letter.Contains 'e', Letter.Miss 'c', Letter.Contains 'g', Letter.Miss 'c', Letter.Miss 'c'],
   [Letter.Contains 'e', Letter.Contains 'g', Letter.Contains 'g', Letter.Miss 'c', Letter.Miss 'c'],
   [Letter.Miss 'c', Letter.Miss 'c', Letter.Miss 'e', Letter.Miss 'c', Letter.Contains 'y']]

/-- Three-word dictionary exhibiting the ranking direction of
`Wordl::suggest`, listed in BTreeSet (ascending) order. -/
def exDict : List (List Char) :=
  [['a', 'a', 'a', 'a', 'a'], ['a', 'z', 'z', 'z', 'z'], ['z', 'z', 'z', 'z', 'z']]

/-- Per-position frequency tables of `exDict`, precomputed. -/
def exFreq : List CharFreq :=
  [⟨[('a', 2), ('z', 1)], 3⟩, ⟨[('a', 1), ('z', 2)], 3⟩, ⟨[('a', 1), ('z', 2)], 3⟩,
   ⟨[('a', 1), ('z', 2)], 3⟩, ⟨[('a', 1), ('z', 2)], 3⟩]

/-- C2: for the four-round worked-example history, the predicate built by
`make_is_valid` returns false on "match" as the claim states, but it
also returns false on "eggyy", contradicting the claim and the
repository's own test `tests::test_valid`: round 4 records Miss('e') at
position 2, which puts 'e' into the global excludes set, and rounds 2
and 3 record Contains('e') at position 0, which excludes 'e' there, so
"eggyy" (whose first letter is 'e') is rejected at its first
character. -/
theorem c2_test_history_eval :
    make_is_valid exampleHistory ['m', 'a', 't', 'c', 'h'] = some false ∧
    make_is_valid exampleHistory ['e', 'g', 'g', 'y', 'y'] = some false := by
  decide

/-- C3: seeding the dictionary with exactly match, eggyy, eggzz (in
BTreeSet order) and applying guess() for the four worked-example rounds
leaves the empty dictionary, not the singleton eggyy the claim expects:
match dies in round 1 on the global exclude 'c', and both eggyy and
eggzz die in round 2 because Contains('e') at position 0 excludes 'e'
there and both words start with 'e'. -/
theorem c3_end_to_end_eval :
    (playHistory
      ⟨[['e', 'g', 'g', 'y', 'y'], ['e', 'g', 'g', 'z', 'z'], ['m', 'a', 't', 'c', 'h']], []⟩
      exampleHistory).dictionary = [] := by
  decide

/-- C4: the Required Multiset aggregation cancels duplicates across
rounds: two rounds each holding a single Contains('e') yield exactly one
pending 'e', and the four-round worked example yields the letters
e, g, g, y in extraction order. -/
theorem c4_required_multiset :
    make_contains
      [[Letter.Contains 'e', Letter.Miss 'x', Letter.Miss 'x', Letter.Miss 'x', Letter.Miss 'x'],
       [Letter.Contains 'e', Letter.Miss 'x', Letter.Miss 'x', Letter.Miss 'x', Letter.Miss 'x']]
      = ['e'] ∧
    make_contains exampleHistory = ['e', 'g', 'g', 'y'] := by
  decide

/-- C1 counterexample: a one-round history that is accurate feedback for
the target "abcde" in exactly the claim's sense (Contains('e') at
positions 0 and 1 — 'e' occurs in the target but not there — and
Miss('z') elsewhere), yet the predicate rejects the target: the round
contributes two copies of 'e' to the Required Multiset while the target
has only one 'e' to consume them. -/
theorem c1_counterexample :
    AccurateHistory ['a', 'b', 'c', 'd', 'e']
      [[Letter.Contains 'e', Letter.Contains 'e', Letter.Miss 'z', Letter.Miss 'z',
        Letter.Miss 'z']] = true ∧
    make_is_valid
      [[Letter.Contains 'e', Letter.Contains 'e', Letter.Miss 'z', Letter.Miss 'z',
        Letter.Miss 'z']]
      ['a', 'b', 'c', 'd', 'e'] = some false := by
  decide

/-- C6 counterexample: on an exhausted (empty) dictionary, suggest
returns the ordinary successful empty list — no error value exists in
its result type, so no explicit no-candidates condition is reported. -/
theorem c6_counterexample : Wordl.suggest ⟨[], []⟩ 3 = some [] := by
  decide

/-- C6 amended: when the dictionary is exhausted, suggest silently
returns an empty success list for every requested count. -/
theorem c6_amended (upto : Nat) : Wordl.suggest ⟨[], []⟩ upto = some [] := by
  simp [Wordl.suggest, sortAsc]

/-- C7 counterexample: no MalformedRecord error exists.  A three-letter
candidate presented to the empty-history predicate is evaluated as if
well-formed and accepted, and a six-letter candidate makes the closure
index past the end of the five-slot hits array, a panic (modelled by
none). -/
theorem c7_counterexample :
    make_is_valid [] ['e', 'g', 'g'] = some true ∧
    make_is_valid [] ['a', 'b', 'c', 'd', 'e', 'f'] = none := by
  decide

/-- C5: suggest ranks ascending by score and returns the lowest-scoring
candidates, not the highest.  On exDict the highest-scoring word is
azzzz (score 10/3 against 2 for aaaaa), yet suggest(1) returns aaaaa;
the second conjunct exhibits the score gap. -/
theorem c5_suggest_returns_lowest :
    Wordl.suggest ⟨exDict, []⟩ 1 = some [['a', 'a', 'a', 'a', 'a']] ∧
    (scoreOpt (make_char_frequency exDict) ['a', 'a', 'a', 'a', 'a']).getD 0 <
      (scoreOpt (make_char_frequency exDict) ['a', 'z', 'z', 'z', 'z']).getD 0 := by
  have hF : make_char_frequency exDict = exFreq := by decide
  have hg : (exDict.all fun s => (scoreOpt (make_char_frequency exDict) s).isSome) = true := by
    decide
  constructor
  · rw [Wordl.suggest]
    rw [show (⟨exDict, []⟩ : Wordl).dictionary = exDict from rfl, if_pos hg, hF]
    norm_num [sortAsc, insertAsc, exDict, scoreOpt, scoreFold, rate, exFreq, lookupCount,
      show ('a' : Char) ≠ 'z' from by decide, show ('z' : Char) ≠ 'a' from by decide]
  · rw [hF]
    norm_num [scoreOpt, scoreFold, rate, exFreq, lookupCount,
      show ('a' : Char) ≠ 'z' from by decide, show ('z' : Char) ≠ 'a' from by decide]

theorem writeHits_length (w : List Letter) : ∀ (res : List (Option Char)) (idx : Nat),
    (writeHits res idx w).length = res.length := by
  induction w with
  | nil => intro res idx; rfl
  | cons l rest ih =>
    intro res idx
    cases l <;> simp [writeHits, ih, List.length_set]

theorem make_hits_length (ws : List (List Letter)) : (make_hits ws).length = 5 := by
  suffices h : ∀ res : List (Option Char),
      (ws.foldl (fun res w => writeHits res 0 w) res).length = res.length by
    simpa [make_hits] using h (List.replicate 5 none)
  induction ws with
  | nil => intro res; rfl
  | cons w rest ih => intro res; simp [List.foldl_cons, ih, writeHits_length]

theorem writeExAt_length (w : List Letter) : ∀ (res : List (List Char)) (idx : Nat),
    (writeExAt res idx w).length = res.length := by
  induction w with
  | nil => intro res idx; rfl
  | cons l rest ih =>
    intro res idx
    cases l <;> simp [writeExAt, ih, List.length_set]

theorem make_excludes_at_length (ws : List (List Letter)) : (make_excludes_at ws).length = 5 := by
  suffices h : ∀ res : List (List Char),
      (ws.foldl (fun res w => writeExAt res 0 w) res).length = res.length by
    simpa [make_excludes_at] using h (List.replicate 5 [])
  induction ws with
  | nil => intro res; rfl
  | cons w rest ih => intro res; simp [List.foldl_cons, ih, writeExAt_length]

theorem evalFrom_neutral (s : List Char) : ∀ idx : Nat, idx + s.length ≤ 5 →
    evalFrom [] (List.replicate 5 none) (List.replicate 5 []) s idx [] = some true := by
  induction s with
  | nil => intro idx h; rfl
  | cons c rest ih =>
    intro idx h
    have hidx : idx < 5 := by simp [List.length_cons] at h; omega
    rw [evalFrom]
    simp only [List.contains_nil, List.getElem?_replicate, hidx, if_true, if_false,
      hitMismatch, Bool.false_eq_true]
    exact ih (idx + 1) (by simp [List.length_cons] at h ⊢; omega)

/-- C8: the empty guess history yields empty or neutral constraint sets
(no required letters, no hits, no global excludes, no positional
exclusions) and its predicate accepts every word of length 5. -/
theorem c8_empty_history (s : List Char) (h : s.length = 5) :
    make_contains [] = [] ∧ make_hits [] = List.replicate 5 none ∧
    make_excludes [] = [] ∧ make_excludes_at [] = List.replicate 5 [] ∧
    make_is_valid [] s = some true := by
  refine ⟨rfl, rfl, rfl, rfl, ?_⟩
  exact evalFrom_neutral s 0 (by omega)

/-- Witness for C8 at the concrete word abcde. -/
theorem c8_empty_history_witness :
    make_is_valid [] ['a', 'b', 'c', 'd', 'e'] = some true :=
  (c8_empty_history ['a', 'b', 'c', 'd', 'e'] (by decide)).2.2.2.2

theorem evalFrom_isSome (excl : List Char) (hits : List (Option Char)) (exAt : List (List Char))
    (hh : hits.length = 5) (he : exAt.length = 5) :
    ∀ (s : List Char) (idx : Nat) (cont : List Char), idx + s.length ≤ 5 →
    (evalFrom excl hits exAt s idx cont).isSome = true := by
  intro s
  induction s with
  | nil => intro idx cont h; rfl
  | cons c rest ih =>
    intro idx cont h
    have hidx : idx < 5 := by simp [List.length_cons] at h; omega
    obtain ⟨oh, hoh⟩ : ∃ oh, hits[idx]? = some oh :=
      ⟨_, List.getElem?_eq_getElem (by omega)⟩
    obtain ⟨ex, hex⟩ : ∃ ex, exAt[idx]? = some ex :=
      ⟨_, List.getElem?_eq_getElem (by omega)⟩
    rw [evalFrom]
    simp only [hoh, hex]
    by_cases hc : c ∈ excl
    · simp [hc]
    · by_cases hm : hitMismatch oh c
      · simp [hc, hm]
      · by_cases hin : c ∈ ex
        · simp [hc, hm, hin]
        · have hc2 : excl.contains c = false := by simpa using hc
          have hin2 : ex.contains c = false := by simpa using hin
          simp only [hc2, hm, hin2, Bool.false_eq_true, if_false]
          exact ih (idx + 1) _ (by simp [List.length_cons] at h ⊢; omega)

/-- C7 amended: the predicate never surfaces an explicit wrong-length
error.  Every candidate of length at most 5 is evaluated as if
well-formed, producing a plain boolean (no crash and no error value);
the counterexample shows a longer candidate instead hits an
out-of-bounds panic. -/
theorem c7_amended (ws : List (List Letter)) (s : List Char) (h : s.length ≤ 5) :
    (make_is_valid ws s).isSome = true :=
  evalFrom_isSome (make_excludes ws) (make_hits ws) (make_excludes_at ws)
    (make_hits_length ws) (make_excludes_at_length ws) s 0 (make_contains ws) (by omega)

/-- Witness for C7 amended at the empty history and a two-letter word. -/
theorem c7_amended_witness : (make_is_valid [] ['a', 'b']).isSome = true :=
  c7_amended [] ['a', 'b'] (by decide)

theorem foldl_roundStep_extends (inst : List Char) : ∀ acc stack : List Char,
    ∃ t, (inst.foldl roundStep (acc, stack)).1 = acc ++ t := by
  induction inst with
  | nil => intro acc stack; exact ⟨[], by simp⟩
  | cons c rest ih =>
    intro acc stack
    rw [List.foldl_cons]
    by_cases h : c ∈ stack
    · have hs : roundStep (acc, stack) c = (acc, stack.erase c) := by
        simp [roundStep, h]
      rw [hs]; exact ih acc (stack.erase c)
    · have hs : roundStep (acc, stack) c = (acc ++ [c], stack) := by
        simp [roundStep, h]
      rw [hs]
      obtain ⟨t, ht⟩ := ih (acc ++ [c]) stack
      exact ⟨c :: t, by simpa using ht⟩

/-- C9: the Required Multiset accumulator only grows: appending one more
guess record extends the aggregated list of make_contains on the right,
never removing or reordering the letters required by earlier rounds. -/
theorem c9_make_contains_extends (h : List (List Letter)) (r : List Letter) :
    ∃ t, make_contains (h ++ [r]) = make_contains h ++ t := by
  rw [make_contains, List.foldl_append]
  simpa [make_contains, processRound] using
    foldl_roundStep_extends (roundLetters r) (make_contains h) (make_contains h)

theorem rate_zero_counts (f : CharFreq) (c : Char) (h : lookupCount f.counts c = none) :
    rate f c = 0 := by
  cases htot : f.total with
  | zero => simp [rate, htot]
  | succ n => simp [rate, htot, h]

theorem scoreFold_neutral (s : List Char) : ∀ (idx : Nat) (acc : ℚ), idx + s.length ≤ 5 →
    scoreFold (List.replicate 5 ⟨[], 0⟩) s idx acc = some acc := by
  induction s with
  | nil => intro idx acc h; rfl
  | cons c rest ih =>
    intro idx acc h
    have hidx : idx < 5 := by simp [List.length_cons] at h; omega
    rw [scoreFold]
    simp only [List.getElem?_replicate, hidx, if_true]
    have hr : rate ⟨[], 0⟩ c = 0 := rfl
    rw [hr, add_zero]
    exact ih (idx + 1) acc (by simp [List.length_cons] at h ⊢; omega)

/-- C10: CharFreq::rate is total.  With an empty table (total 0) it
returns 0, a letter never inserted rates 0, and scoring any 5-letter
word against the frequency tables of an empty dictionary gives score
0. -/
theorem c10_rate_total :
    (∀ (f : CharFreq) (c : Char), f.total = 0 → rate f c = 0) ∧
    (∀ (f : CharFreq) (c : Char), lookupCount f.counts c = none → rate f c = 0) ∧
    (∀ s : List Char, s.length = 5 → scoreOpt (make_char_frequency []) s = some 0) := by
  refine ⟨?_, ?_, ?_⟩
  · intro f c h
    simp [rate, h]
  · intro f c h
    exact rate_zero_counts f c h
  · intro s h
    have : make_char_frequency [] = List.replicate 5 ⟨[], 0⟩ := rfl
    rw [scoreOpt, this]
    exact scoreFold_neutral s 0 0 (by omega)

/-- Witness for C10 at concrete tables and the word abcde. -/
theorem c10_rate_total_witness :
    rate ⟨[], 0⟩ 'a' = 0 ∧ rate ⟨[('b', 1)], 1⟩ 'a' = 0 ∧
    scoreOpt (make_char_frequency []) ['a', 'b', 'c', 'd', 'e'] = some 0 :=
  ⟨c10_rate_total.1 ⟨[], 0⟩ 'a' rfl,
   c10_rate_total.2.1 ⟨[('b', 1)], 1⟩ 'a' (by decide),
   c10_rate_total.2.2 ['a', 'b', 'c', 'd', 'e'] rfl⟩

theorem foldl_roundStep_count (inst : List Char) : ∀ (acc stack : List Char) (c : Char),
    ((inst.foldl roundStep (acc, stack)).1).count c
      = acc.count c + (inst.count c - stack.count c) := by
  induction inst with
  | nil => intro acc stack c; simp
  | cons d rest ih =>
    intro acc stack c
    rw [List.foldl_cons]
    by_cases h : d ∈ stack
    · have hs : roundStep (acc, stack) d = (acc, stack.erase d) := by simp [roundStep, h]
      rw [hs, ih]
      have hpos : 0 < stack.count d := List.count_pos_iff.mpr h
      by_cases hdc : d = c
      · subst hdc
        rw [List.count_erase_self]
        have hcons : (d :: rest).count d = rest.count d + 1 := by simp
        omega
      · have hdc2 : c ≠ d := fun hh => hdc hh.symm
        rw [List.count_erase_of_ne hdc2]
        have hcons : (d :: rest).count c = rest.count c := by
          simp [List.count_cons, hdc2]
        omega
    · have hs : roundStep (acc, stack) d = (acc ++ [d], stack) := by simp [roundStep, h]
      rw [hs, ih]
      by_cases hdc : d = c
      · subst hdc
        have h0 : stack.count d = 0 := List.count_eq_zero.mpr h
        have h1 : (acc ++ [d]).count d = acc.count d + 1 := by simp
        have hcons : (d :: rest).count d = rest.count d + 1 := by simp
        omega
      · have hdc2 : c ≠ d := fun hh => hdc hh.symm
        have h1 : (acc ++ [d]).count c = acc.count c := by
          simp [List.count_append, List.count_singleton, hdc2]
        have hcons : (d :: rest).count c = rest.count c := by
          simp [List.count_cons, hdc2]
        omega

theorem processRound_count (acc inst : List Char) (c : Char) :
    (processRound acc inst).count c = acc.count c + (inst.count c - acc.count c) := by
  rw [processRound, foldl_roundStep_count]

theorem boundedRecord_count (target : List Char) (w : List Letter)
    (h : BoundedRecord target w = true) (c : Char) :
    (roundLetters w).count c ≤ target.count c := by
  by_cases hc : c ∈ roundLetters w
  · rw [BoundedRecord, List.all_eq_true] at h
    simpa using h c hc
  · simp [List.count_eq_zero.mpr hc]

theorem make_contains_count_le (target : List Char) (ws : List (List Letter))
    (hbnd : ∀ w ∈ ws, ∀ c : Char, (roundLetters w).count c ≤ target.count c) :
    ∀ c : Char, (make_contains ws).count c ≤ target.count c := by
  suffices h : ∀ (ws' : List (List Letter)) (acc : List Char),
      (∀ w ∈ ws', ∀ c : Char, (roundLetters w).count c ≤ target.count c) →
      (∀ c : Char, acc.count c ≤ target.count c) →
      ∀ c : Char,
        ((ws'.foldl (fun a w => processRound a (roundLetters w)) acc).count c ≤ target.count c) by
    exact h ws [] hbnd (by simp)
  intro ws'
  induction ws' with
  | nil => intro acc _ hacc c; exact hacc c
  | cons w rest ih =>
    intro acc hb hacc c
    rw [List.foldl_cons]
    refine ih (processRound acc (roundLetters w)) (fun w' hw' => hb w' (by simp [hw'])) ?_ c
    intro d
    rw [processRound_count]
    have h1 := hacc d
    have h2 := hb w (by simp) d
    omega

theorem mem_make_excludes {ws : List (List Letter)} {c : Char} (h : c ∈ make_excludes ws) :
    ∃ w ∈ ws, Letter.Miss c ∈ w := by
  rw [make_excludes, List.mem_flatten] at h
  obtain ⟨l, hl, hcl⟩ := h
  rw [List.mem_map] at hl
  obtain ⟨w, hw, rfl⟩ := hl
  rw [List.mem_filterMap] at hcl
  obtain ⟨lt, hlt, hmatch⟩ := hcl
  cases lt with
  | Hit d => simp at hmatch
  | Contains d => simp at hmatch
  | Miss d =>
    obtain rfl : d = c := by simpa using hmatch
    exact ⟨w, hw, hlt⟩

theorem accFrom_spec (target : List Char) (w : List Letter) :
    ∀ n : Nat, accFrom target n w = true →
    ∀ (j : Nat) (l : Letter), w[j]? = some l → accOutcome target (n + j) l = true := by
  induction w with
  | nil => intro n _ j l hj; simp at hj
  | cons a rest ih =>
    intro n h j l hj
    rw [accFrom, Bool.and_eq_true] at h
    cases j with
    | zero =>
      obtain rfl : a = l := by simpa using hj
      simpa using h.1
    | succ j =>
      have hrec := ih (n + 1) h.2 j l (by simpa using hj)
      have harith : n + 1 + j = n + (j + 1) := by omega
      rwa [harith] at hrec

theorem accurateRecord_spec (target : List Char) (w : List Letter)
    (h : AccurateRecord target w = true) :
    ∀ (j : Nat) (l : Letter), w[j]? = some l → accOutcome target j l = true := by
  rw [AccurateRecord, Bool.and_eq_true] at h
  intro j l hj
  simpa using accFrom_spec target w 0 h.2 j l hj

theorem writeHits_getElem? (w : List Letter) :
    ∀ (res : List (Option Char)) (n i : Nat) (v : Option Char),
    (writeHits res n w)[i]? = some v →
    res[i]? = some v ∨ ∃ (j : Nat) (c : Char), w[j]? = some (Letter.Hit c) ∧ n + j = i ∧ v = some c := by
  induction w with
  | nil => intro res n i v h; exact Or.inl h
  | cons l rest ih =>
    intro res n i v h
    cases l with
    | Hit c =>
      simp only [writeHits] at h
      rcases ih _ (n + 1) i v h with h1 | ⟨j, c2, hj, hn, hv⟩
      · rw [List.getElem?_set] at h1
        by_cases hni : n = i
        · rw [if_pos hni] at h1
          by_cases hlen : n < res.length
          · rw [if_pos hlen] at h1
            exact Or.inr ⟨0, c, by simp, by omega, (Option.some.inj h1).symm⟩
          · rw [if_neg hlen] at h1
            simp at h1
        · rw [if_neg hni] at h1
          exact Or.inl h1
      · exact Or.inr ⟨j + 1, c2, by simpa using hj, by omega, hv⟩
    | Miss c =>
      simp only [writeHits] at h
      rcases ih _ (n + 1) i v h with h1 | ⟨j, c2, hj, hn, hv⟩
      · exact Or.inl h1
      · exact Or.inr ⟨j + 1, c2, by simpa using hj, by omega, hv⟩
    | Contains c =>
      simp only [writeHits] at h
      rcases ih _ (n + 1) i v h with h1 | ⟨j, c2, hj, hn, hv⟩
      · exact Or.inl h1
      · exact Or.inr ⟨j + 1, c2, by simpa using hj, by omega, hv⟩

theorem make_hits_mem (ws : List (List Letter)) (i : Nat) (c : Char)
    (h : (make_hits ws)[i]? = some (some c)) :
    ∃ w ∈ ws, w[i]? = some (Letter.Hit c) := by
  suffices hgen : ∀ (ws' : List (List Letter)) (res : List (Option Char)),
      ((ws'.foldl (fun r w => writeHits r 0 w) res)[i]?) = some (some c) →
      res[i]? = some (some c) ∨ ∃ w ∈ ws', w[i]? = some (Letter.Hit c) by
    rcases hgen ws (List.replicate 5 none) h with h1 | h1
    · rw [List.getElem?_replicate] at h1
      by_cases hi : i < 5 <;> simp [hi] at h1
    · exact h1
  intro ws'
  induction ws' with
  | nil => intro res hr; exact Or.inl hr
  | cons w rest ih =>
    intro res hr
    rw [List.foldl_cons] at hr
    rcases ih _ hr with h1 | ⟨w', hw', hj⟩
    · rcases writeHits_getElem? w res 0 i (some c) h1 with h2 | ⟨j, c', hj, hn, hv⟩
      · exact Or.inl h2
      · obtain rfl : c' = c := by simpa using hv.symm
        refine Or.inr ⟨w, by simp, ?_⟩
        have hji : j = i := by omega
        rwa [hji] at hj
    · exact Or.inr ⟨w', by simp [hw'], hj⟩

theorem mem_insertChar {s : List Char} {c d : Char} (h : d ∈ insertChar s c) : d ∈ s ∨ d = c := by
  rw [insertChar] at h
  by_cases hc : s.contains c = true
  · rw [if_pos hc] at h; exact Or.inl h
  · rw [if_neg hc] at h
    rcases List.mem_append.mp h with h1 | h1
    · exact Or.inl h1
    · exact Or.inr (by simpa using h1)

theorem writeExAt_mem (w : List Letter) :
    ∀ (res : List (List Char)) (n i : Nat) (ex : List Char) (d : Char),
    (writeExAt res n w)[i]? = some ex → d ∈ ex →
    (∃ ex0, res[i]? = some ex0 ∧ d ∈ ex0) ∨
      ∃ j : Nat, w[j]? = some (Letter.Contains d) ∧ n + j = i := by
  induction w with
  | nil => intro res n i ex d h hd; exact Or.inl ⟨ex, h, hd⟩
  | cons l rest ih =>
    intro res n i ex d h hd
    cases l with
    | Contains c =>
      simp only [writeExAt] at h
      rcases ih _ (n + 1) i ex d h hd with ⟨ex0, hex0, hdex0⟩ | ⟨j, hj, hn⟩
      · rw [List.getElem?_set] at hex0
        by_cases hni : n = i
        · rw [if_pos hni] at hex0
          by_cases hlen : n < res.length
          · rw [if_pos hlen] at hex0
            obtain rfl : insertChar ((res[n]?).getD []) c = ex0 := by
              simpa using hex0
            rcases mem_insertChar hdex0 with hin | rfl
            · have hsome : res[n]? = some (res.get ⟨n, hlen⟩) :=
                List.getElem?_eq_getElem hlen
              rw [hsome] at hin
              subst hni
              exact Or.inl ⟨res.get ⟨n, hlen⟩, hsome, by simpa using hin⟩
            · exact Or.inr ⟨0, by simp, by omega⟩
          · rw [if_neg hlen] at hex0
            simp at hex0
        · rw [if_neg hni] at hex0
          exact Or.inl ⟨ex0, hex0, hdex0⟩
      · exact Or.inr ⟨j + 1, by simpa using hj, by omega⟩
    | Hit c =>
      simp only [writeExAt] at h
      rcases ih _ (n + 1) i ex d h hd with ⟨ex0, hex0, hdex0⟩ | ⟨j, hj, hn⟩
      · exact Or.inl ⟨ex0, hex0, hdex0⟩
      · exact Or.inr ⟨j + 1, by simpa using hj, by omega⟩
    | Miss c =>
      simp only [writeExAt] at h
      rcases ih _ (n + 1) i ex d h hd with ⟨ex0, hex0, hdex0⟩ | ⟨j, hj, hn⟩
      · exact Or.inl ⟨ex0, hex0, hdex0⟩
      · exact Or.inr ⟨j + 1, by simpa using hj, by omega⟩

theorem make_excludes_at_mem (ws : List (List Letter)) (i : Nat) (ex : List Char) (d : Char)
    (h : (make_excludes_at ws)[i]? = some ex) (hd : d ∈ ex) :
    ∃ w ∈ ws, w[i]? = some (Letter.Contains d) := by
  suffices hgen : ∀ (ws' : List (List Letter)) (res : List (List Char)) (ex : List Char),
      ((ws'.foldl (fun r w => writeExAt r 0 w) res)[i]?) = some ex → d ∈ ex →
      (∃ ex0, res[i]? = some ex0 ∧ d ∈ ex0) ∨ ∃ w ∈ ws', w[i]? = some (Letter.Contains d) by
    rcases hgen ws (List.replicate 5 []) ex h hd with ⟨ex0, hex0, hdex0⟩ | h1
    · rw [List.getElem?_replicate] at hex0
      by_cases hi : i < 5
      · rw [if_pos hi] at hex0
        obtain rfl : ([] : List Char) = ex0 := by simpa using hex0
        simp at hdex0
      · rw [if_neg hi] at hex0; simp at hex0
    · exact h1
  intro ws'
  induction ws' with
  | nil => intro res ex2 hr hd2; exact Or.inl ⟨ex2, hr, hd2⟩
  | cons w rest ih =>
    intro res ex2 hr hd2
    rw [List.foldl_cons] at hr
    rcases ih _ ex2 hr hd2 with ⟨ex0, hex0, hdex0⟩ | ⟨w', hw', hj⟩
    · rcases writeExAt_mem w res 0 i ex0 d hex0 hdex0 with h2 | ⟨j, hj, hn⟩
      · exact Or.inl h2
      · refine Or.inr ⟨w, by simp, ?_⟩
        have hji : j = i := by omega
        rwa [hji] at hj
    · exact Or.inr ⟨w', by simp [hw'], hj⟩

theorem evalFrom_accepts (target excl : List Char) (hits : List (Option Char))
    (exAt : List (List Char))
    (h5 : target.length = 5) (hh : hits.length = 5) (he : exAt.length = 5)
    (hexcl : ∀ c : Char, c ∈ excl → c ∉ target)
    (hhits : ∀ (i : Nat) (c : Char), hits[i]? = some (some c) → target[i]? = some c)
    (hexat : ∀ (i : Nat) (ex : List Char) (d : Char),
      exAt[i]? = some ex → d ∈ ex → target[i]? ≠ some d) :
    ∀ (s : List Char) (idx : Nat) (cont : List Char),
    target.drop idx = s →
    (∀ c : Char, cont.count c ≤ s.count c) →
    evalFrom excl hits exAt s idx cont = some true := by
  intro s
  induction s with
  | nil =>
    intro idx cont hdrop hcnt
    have hnil : cont = [] := by
      cases cont with
      | nil => rfl
      | cons a t =>
        have := hcnt a
        simp [List.count_cons] at this
    rw [hnil, evalFrom]
    rfl
  | cons c rest ih =>
    intro idx cont hdrop hcnt
    have hti : target[idx]? = some c := by
      have hd := List.getElem?_drop target idx 0
      rw [hdrop] at hd
      simpa using hd.symm
    have hidx : idx < target.length := (List.getElem?_eq_some.mp hti).1
    have hmem : c ∈ target := List.getElem?_mem hti
    have hcex : c ∉ excl := fun hx => (hexcl c hx) hmem
    obtain ⟨oh, hoh⟩ : ∃ oh, hits[idx]? = some oh :=
      ⟨_, List.getElem?_eq_getElem (by omega)⟩
    obtain ⟨ex, hex⟩ : ∃ ex, exAt[idx]? = some ex :=
      ⟨_, List.getElem?_eq_getElem (by omega)⟩
    have hmis : hitMismatch oh c = false := by
      cases oh with
      | none => rfl
      | some hch =>
        have hth : target[idx]? = some hch := hhits idx hch hoh
        rw [hti] at hth
        obtain rfl : c = hch := by simpa using hth
        simp [hitMismatch]
    have hcex2 : c ∉ ex := fun hcx => (hexat idx ex c hex hcx) hti
    have hdrop2 : target.drop (idx + 1) = rest := by
      have hdd : (target.drop idx).drop 1 = target.drop (idx + 1) := by
        rw [List.drop_drop]
      rw [hdrop] at hdd
      simpa using hdd.symm
    have hcnt2 : ∀ d : Char,
        (if cont.contains c then cont.erase c else cont).count d ≤ rest.count d := by
      intro d
      by_cases hcc : c ∈ cont
      · have hb : cont.contains c = true := by simpa using hcc
        rw [hb, if_pos rfl]
        by_cases hdc : d = c
        · subst hdc
          rw [List.count_erase_self]
          have h1 := hcnt d
          have h2 : (d :: rest).count d = rest.count d + 1 := by simp
          omega
        · rw [List.count_erase_of_ne hdc]
          have h1 := hcnt d
          have h2 : (c :: rest).count d = rest.count d := by simp [List.count_cons, hdc]
          omega
      · have hb : cont.contains c = false := by simpa using hcc
        rw [hb]
        simp only [Bool.false_eq_true, if_false]
        by_cases hdc : d = c
        · subst hdc
          have h0 : cont.count d = 0 := List.count_eq_zero.mpr hcc
          omega
        · have h1 := hcnt d
          have h2 : (c :: rest).count d = rest.count d := by simp [List.count_cons, hdc]
          omega
    rw [evalFrom]
    simp only [hoh, hex]
    have hc2 : excl.contains c = false := by simpa using hcex
    have hex2 : ex.contains c = false := by simpa using hcex2
    simp only [hc2, hmis, hex2, Bool.false_eq_true, if_false]
    exact ih (idx + 1) _ hdrop2 hcnt2

theorem make_is_valid_accepts (target : List Char) (ws : List (List Letter))
    (h5 : target.length = 5)
    (hacc : AccurateHistory target ws = true)
    (hbnd : BoundedHistory target ws = true) :
    make_is_valid ws target = some true := by
  have haccs : ∀ w ∈ ws, AccurateRecord target w = true := by
    rw [AccurateHistory, List.all_eq_true] at hacc; exact hacc
  have hbnds : ∀ w ∈ ws, BoundedRecord target w = true := by
    rw [BoundedHistory, List.all_eq_true] at hbnd; exact hbnd
  have hexcl : ∀ c : Char, c ∈ make_excludes ws → c ∉ target := by
    intro c hc
    obtain ⟨w, hw, hmiss⟩ := mem_make_excludes hc
    obtain ⟨j, hj⟩ := List.mem_iff_getElem?.mp hmiss
    have hout := accurateRecord_spec target w (haccs w hw) j (Letter.Miss c) hj
    simpa [accOutcome] using hout
  have hhits : ∀ (i : Nat) (c : Char),
      (make_hits ws)[i]? = some (some c) → target[i]? = some c := by
    intro i c h
    obtain ⟨w, hw, hj⟩ := make_hits_mem ws i c h
    have hout := accurateRecord_spec target w (haccs w hw) i (Letter.Hit c) hj
    simpa [accOutcome] using hout
  have hexat : ∀ (i : Nat) (ex : List Char) (d : Char),
      (make_excludes_at ws)[i]? = some ex → d ∈ ex → target[i]? ≠ some d := by
    intro i ex d hx hd
    obtain ⟨w, hw, hj⟩ := make_excludes_at_mem ws i ex d hx hd
    have hout := accurateRecord_spec target w (haccs w hw) i (Letter.Contains d) hj
    simp only [accOutcome, Bool.and_eq_true, bne_iff_ne, ne_eq] at hout
    exact hout.2
  rw [make_is_valid]
  apply evalFrom_accepts target _ _ _ h5 (make_hits_length ws) (make_excludes_at_length ws)
    hexcl hhits hexat target 0 (make_contains ws) (by simp)
  exact make_contains_count_le target ws
    (fun w hw c => boundedRecord_count target w (hbnds w hw) c)

theorem playHistory_survives (target : List Char) (h5 : target.length = 5) :
    ∀ (rs : List (List Letter)) (st : Wordl),
    (∀ w ∈ st.guesses ++ rs, AccurateRecord target w = true ∧ BoundedRecord target w = true) →
    target ∈ st.dictionary → target ∈ (playHistory st rs).dictionary := by
  intro rs
  induction rs with
  | nil => intro st _ hm; exact hm
  | cons r rest ih =>
    intro st h hm
    have hnext : ∀ w ∈ (st.guess r).guesses ++ rest,
        AccurateRecord target w = true ∧ BoundedRecord target w = true := by
      intro w hw
      apply h
      simp only [Wordl.guess, List.mem_append, List.mem_singleton, List.mem_cons] at hw ⊢
      tauto
    have hv : make_is_valid (st.guesses ++ [r]) target = some true := by
      apply make_is_valid_accepts target _ h5
      · rw [AccurateHistory, List.all_eq_true]
        intro w hw
        refine (h w ?_).1
        simp only [List.mem_append, List.mem_singleton, List.mem_cons] at hw ⊢
        tauto
      · rw [BoundedHistory, List.all_eq_true]
        intro w hw
        refine (h w ?_).2
        simp only [List.mem_append, List.mem_singleton, List.mem_cons] at hw ⊢
        tauto
    have hmem2 : target ∈ (st.guess r).dictionary := by
      rw [Wordl.guess]
      simp only [List.mem_filter]
      exact ⟨hm, by simp [hv]⟩
    have hrec := ih (st.guess r) hnext hmem2
    simpa [playHistory, List.foldl_cons] using hrec

/-- C1 amended: for a 5-letter target and a history of accurate records
in the claim's sense that additionally mark each letter (as Hit or
Contains) at most as many times per round as it occurs in the target —
which real Wordle feedback guarantees — the predicate accepts the
target; moreover one guess() round always shrinks the dictionary to a
subset of itself, and the target survives filtering at every round when
the rounds of such a history are played in order.  Without the
per-round multiplicity bound the first conjunct fails, see the
counterexample. -/
theorem c1_amended (target : List Char) (ws : List (List Letter))
    (h5 : target.length = 5)
    (hacc : AccurateHistory target ws = true)
    (hbnd : BoundedHistory target ws = true) :
    make_is_valid ws target = some true ∧
    (∀ (st : Wordl) (r : List Letter) (x : List Char),
      x ∈ (st.guess r).dictionary → x ∈ st.dictionary) ∧
    (∀ (dict : List (List Char)) (rs1 rs2 : List (List Letter)), ws = rs1 ++ rs2 →
      target ∈ dict → target ∈ (playHistory ⟨dict, []⟩ rs1).dictionary) := by
  refine ⟨make_is_valid_accepts target ws h5 hacc hbnd, ?_, ?_⟩
  · intro st r x hx
    exact List.mem_of_mem_filter hx
  · intro dict rs1 rs2 hsplit hmem
    apply playHistory_survives target h5 rs1 ⟨dict, []⟩ ?_ hmem
    intro w hw
    have hwws : w ∈ ws := by
      rw [hsplit]
      simp only [List.mem_append]
      exact Or.inl (by simpa using hw)
    constructor
    · rw [AccurateHistory, List.all_eq_true] at hacc; exact hacc w hwws
    · rw [BoundedHistory, List.all_eq_true] at hbnd; exact hbnd w hwws

/-- Witness for C1 amended: a concrete accurate and bounded one-round
history for the target abcde, whose predicate accepts the target. -/
theorem c1_amended_witness :
    make_is_valid
      [[Letter.Hit 'a', Letter.Miss 'z', Letter.Contains 'b', Letter.Miss 'z', Letter.Miss 'z']]
      ['a', 'b', 'c', 'd', 'e'] = some true :=
  (c1_amended ['a', 'b', 'c', 'd', 'e']
    [[Letter.Hit 'a', Letter.Miss 'z', Letter.Contains 'b', Letter.Miss 'z', Letter.Miss 'z']]
    (by decide) (by decide) (by decide)).1
